import Mathlib

/-!
# Verification of the `romantic` Roman-numeral codec

Shallow embedding of `src/lib.rs` (crate `romantic`): a bidirectional codec
between non-negative integers and a generalized Roman-numeral notation,
parameterized by a caller-supplied symbol alphabet.

Modelling conventions:
* `HashMap<char, usize>` / `HashMap<usize, char>` are modelled as association
  lists where `insert` conses at the front, so a later insertion shadows an
  earlier one under `List.lookup` (the same observable behavior as
  `HashMap::insert` overwriting).
* The generic target integer type `T : num::PrimInt` of `from_str` is modelled
  by an `IntType` carrying the representable range `[lo, hi]` as integers;
  `checked_add` / `checked_sub` / `T::from` are modelled range-exactly.
* Machine `usize` magnitudes are modelled as `Nat` (magnitudes in any realistic
  alphabet are tiny compared to `usize::MAX`, and the claims do not concern
  `usize` overflow in table construction).
* Strings are Lean `String`s (lists of characters); `str::chars` order is the
  list order.
-/

namespace Romantic

/-- Rust `enum ConversionError` from `src/lib.rs`: all possible errors that can
occur during conversion. -/
inductive ConversionError where
  /-- Conversion from `usize` to the generic integer type failed. -/
  | GenericConversion : ConversionError
  /-- An input character has no associated value in the `Roman` set. -/
  | InvalidCharacter : Char → ConversionError
  /-- An input magnitude has no associated character in the `Roman` set. -/
  | MissingMagnitude : Nat → ConversionError
  /-- The input number is negative. -/
  | NegativeNumber : ConversionError
  /-- Calculating an integer would cause an overflow. -/
  | Overflow : ConversionError
deriving DecidableEq, Repr

/-- Rust `struct Roman`: the two derived lookup tables.  Association lists
model the two `HashMap`s; the head of the list is the most recent insertion. -/
structure Roman where
  /-- Mapping of a character to its corresponding magnitude (ie. 'I' = 1). -/
  character_magnitude_map : List (Char × Nat)
  /-- Mapping of a magnitude to its corresponding character (ie. 1 = 'I'). -/
  magnitude_character_map : List (Nat × Char)
deriving DecidableEq, Repr

/-- `HashMap::insert` modelled on association lists: cons at the front, so the
new entry shadows any earlier entry with the same key under `List.lookup`. -/
def mapInsert {α β : Type} (key : α) (val : β) (m : List (α × β)) :
    List (α × β) :=
  (key, val) :: m

/-- The loop body of `Roman::new`, iterating over the `enumerate`d character
set while threading the running `magnitude` and the two partially-built maps.
Mirrors `src/lib.rs` lines 121-129:

    for (index, &character) in character_set.iter().enumerate() {
      if index > 0 && index % modulo == 0 { magnitude *= 10; }
      let value = magnitude * values[index % modulo];
      character_magnitude_map.insert(character, value);
      magnitude_character_map.insert(value, character);
    }

with `values = [1, 5]` and `modulo = 2`. -/
def buildMaps : List Char → Nat → Nat → List (Char × Nat) → List (Nat × Char) →
    List (Char × Nat) × List (Nat × Char)
  | [], _, _, cm, mc => (cm, mc)
  | character :: rest, index, magnitude, cm, mc =>
    let magnitude :=
      if index > 0 && index % 2 == 0 then magnitude * 10 else magnitude
    let value := magnitude * (if index % 2 == 0 then 1 else 5)
    buildMaps rest (index + 1) magnitude
      (mapInsert character value cm) (mapInsert value character mc)

/-- Rust `Roman::new`: creates a `Roman` from the characters in
`character_set`; the order of the set determines the magnitudes. -/
def Roman.new (character_set : List Char) : Roman :=
  let (cm, mc) := buildMaps character_set 0 1 [] []
  { character_magnitude_map := cm, magnitude_character_map := mc }

/-- Rust `Roman::default()`: `Roman::new(&['I','V','X','L','C','D','M'])`. -/
def Roman.default : Roman :=
  Roman.new ['I', 'V', 'X', 'L', 'C', 'D', 'M']

/-- A model of a Rust `num::PrimInt` target type: the inclusive range
`[lo, hi]` of integers it can represent. -/
structure IntType where
  /-- Smallest representable value (`T::min_value()`). -/
  lo : Int
  /-- Largest representable value (`T::max_value()`). -/
  hi : Int
deriving DecidableEq, Repr

/-- The model of Rust `i32` (range `-2^31 ..= 2^31 - 1`). -/
def i32 : IntType := ⟨-2147483648, 2147483647⟩

/-- The model of Rust `u32` (range `0 ..= 2^32 - 1`). -/
def u32 : IntType := ⟨0, 4294967295⟩

/-- The model of Rust `u8`. -/
def u8 : IntType := ⟨0, 255⟩

/-- Model of `T::from(value)` for a `usize` value: succeeds exactly when the
value is representable in the target type. -/
def IntType.fromNat (t : IntType) (value : Nat) : Option Int :=
  if t.lo ≤ (value : Int) ∧ (value : Int) ≤ t.hi then some value else none

/-- Model of `checked_add` on the target type: `none` exactly when the exact
sum leaves the representable range. -/
def IntType.checkedAdd (t : IntType) (a b : Int) : Option Int :=
  if t.lo ≤ a + b ∧ a + b ≤ t.hi then some (a + b) else none

/-- Model of `checked_sub` on the target type: `none` exactly when the exact
difference leaves the representable range. -/
def IntType.checkedSub (t : IntType) (a b : Int) : Option Int :=
  if t.lo ≤ a - b ∧ a - b ≤ t.hi then some (a - b) else none

/-- The `let subtract = ...` computation of `Roman::from_str` (`src/lib.rs`
lines 166-174): the current character's magnitude is subtracted exactly when a
peeked next character exists, is present in the table, and its magnitude is
exactly `5 *` or `10 *` the current magnitude. -/
def subtractNext (r : Roman) (value : Nat) (rest : List Char) : Bool :=
  match rest with
  | [] => false
  | next :: _ =>
    match r.character_magnitude_map.lookup next with
    | some next_value =>
      value * 5 == next_value || value * 10 == next_value
    | none => false

/-- The `while let Some(character) = characters.next()` loop of
`Roman::from_str` (`src/lib.rs` lines 157-187).  The peekable iterator is the
remaining character list: `characters.peek()` is the head of `rest`, and
after a subtraction the `continue` leaves the peeked character to be processed
normally by the next iteration. -/
def fromStrAux (r : Roman) (t : IntType) :
    List Char → Int → Except ConversionError Int
  | [], result => .ok result
  | character :: rest, result =>
    match r.character_magnitude_map.lookup character with
    | none => .error (.InvalidCharacter character)
    | some value =>
      match t.fromNat value with
      | none => .error .GenericConversion
      | some generic_value =>
        if subtractNext r value rest then
          match t.checkedSub result generic_value with
          | none => .error .Overflow
          | some result => fromStrAux r t rest result
        else
          match t.checkedAdd result generic_value with
          | none => .error .Overflow
          | some result => fromStrAux r t rest result

/-- Rust `Roman::from_str::<T>`: converts a string to a generic integer of
type `t`, starting from `T::zero()`. -/
def Roman.from_str (r : Roman) (t : IntType) (input : String) :
    Except ConversionError Int :=
  fromStrAux r t input.data 0

/-- Fuelled helper for `decDigitsRev`; structural recursion on the fuel keeps
the definition kernel-reducible.  With enough fuel it peels decimal digits
least-significant first. -/
def decDigitsRevAux : Nat → Nat → List Nat
  | 0, _ => []
  | fuel + 1, n => if n < 10 then [n] else n % 10 :: decDigitsRevAux fuel (n / 10)

/-- The decimal digits of a natural number, least-significant first; `0` has
the single digit `0`.  This is `number.to_string().chars().rev()` of
`Roman::to_string`, with each character already converted by
`to_digit(10)`.  Fuel `n + 1` always suffices since the argument strictly
decreases under division by ten (see `decDigitsRev_eq`). -/
def decDigitsRev (n : Nat) : List Nat :=
  decDigitsRevAux (n + 1) n

/-- The closure `value_of_character` of `Roman::to_string`: looks up the
character for magnitude `m`, as a one-character string, or fails with
`MissingMagnitude m`. -/
def value_of_character (r : Roman) (m : Nat) : Except ConversionError String :=
  match r.magnitude_character_map.lookup m with
  | some c => .ok (String.mk [c])
  | none => .error (.MissingMagnitude m)

/-- Rust `str::repeat`: `n` concatenated copies of `s`. -/
def repeatStr (s : String) : Nat → String
  | 0 => ""
  | n + 1 => s ++ repeatStr s n

/-- The `match digit { .. }` of `Roman::to_string` (`src/lib.rs` lines
243-260): the contribution of one non-zero decimal digit at scale `mag`,
in the reversed internal order the Rust code builds before the final global
reversal.  Lookups are lazy: each unit is only forced (`?`) in the arms that
need it, `unit_5` before `unit_1` for digit 4, `unit_1` before `unit_5` for
digits 6-8, `unit_10` before `unit_1` for digit 9, following the evaluation
order of the `format!` arguments.  The `_ => unreachable!()` arm can only see
digits outside `1..=9`, which never reach it; it is modelled as `.ok ""`. -/
def digitPiece (r : Roman) (digit mag : Nat) : Except ConversionError String :=
  let unit_1 := value_of_character r mag
  let unit_5 := value_of_character r (mag * 5)
  let unit_10 := value_of_character r (mag * 10)
  match digit with
  | 1 | 2 | 3 => do pure (repeatStr (← unit_1) digit)
  | 4 => do
    let five ← unit_5
    let one ← unit_1
    pure (five ++ one)
  | 5 => unit_5
  | 6 | 7 | 8 => do
    let ones ← unit_1
    let five ← unit_5
    pure (repeatStr ones (digit - 5) ++ five)
  | 9 => do
    let ten ← unit_10
    let one ← unit_1
    pure (ten ++ one)
  | _ => .ok ""

/-- The digit loop of `Roman::to_string` (`src/lib.rs` lines 215-261):
iterates over the decimal digits least-significant first with their
`enumerate` index, skipping zeroes, appending each non-zero digit's
contribution to the accumulator string. -/
def toStringAux (r : Roman) : List Nat → Nat → Except ConversionError String
  | [], _ => .ok ""
  | digit :: rest, index =>
    if digit == 0 then toStringAux r rest (index + 1)
    else do
      let piece ← digitPiece r digit (10 ^ index)
      let restPieces ← toStringAux r rest (index + 1)
      pure (piece ++ restPieces)

/-- Rust `Roman::to_string::<T>`: converts an integer to a string.  Fails with
`NegativeNumber` for negative input before any other processing; otherwise
processes the decimal digits and reverses the accumulated result once at the
end (`result.chars().rev().collect()`). -/
def Roman.to_string (r : Roman) (number : Int) :
    Except ConversionError String :=
  if number < 0 then .error .NegativeNumber
  else
    match toStringAux r (decDigitsRev number.toNat) 0 with
    | .error e => .error e
    | .ok result => .ok (String.mk result.data.reverse)

/-- One encode-then-decode round trip, as a boolean check: encoding `n`
succeeds and decoding the resulting string with target type `t` yields `n`
back. -/
def roundTrips (r : Roman) (t : IntType) (n : Nat) : Bool :=
  match r.to_string (n : Int) with
  | .error _ => false
  | .ok s =>
    match r.from_str t s with
    | .ok v => v == (n : Int)
    | .error _ => false

/-- Balanced bounded-range checker: `allRangeAux f fuel lo len` is `true` only
if `f` holds on every natural in `[lo, lo + len)`.  Binary splitting keeps the
recursion depth logarithmic (any `fuel` with `2 ^ fuel ≥ len` suffices; on
exhausted fuel with a non-empty range it conservatively returns `false`). -/
def allRangeAux (f : Nat → Bool) : Nat → Nat → Nat → Bool
  | 0, _, len => len == 0
  | fuel + 1, lo, len =>
    if len == 0 then true
    else if len == 1 then f lo
    else
      allRangeAux f fuel lo (len / 2) &&
        allRangeAux f fuel (lo + len / 2) (len - len / 2)

/-- The set of magnitudes whose symbols a non-zero decimal digit `digit` at
scale `mag` actually requires to form its contribution, in the order the
encode algorithm forces them: digits 1-3 need only the unit symbol, digit 4
needs five then unit, digit 5 needs only five, digits 6-8 need unit then
five, digit 9 needs ten then unit. -/
def needs (digit mag : Nat) : List Nat :=
  match digit with
  | 1 | 2 | 3 => [mag]
  | 4 => [mag * 5, mag]
  | 5 => [mag * 5]
  | 6 | 7 | 8 => [mag, mag * 5]
  | 9 => [mag * 10, mag]
  | _ => []

/-- The magnitude the spec assigns to alphabet position `i` (0-indexed):
`1 * 10 ^ (i / 2)` when `i` is even, `5 * 10 ^ (i / 2)` when `i` is odd. -/
def symVal (i : Nat) : Nat :=
  (if i % 2 = 0 then 1 else 5) * 10 ^ (i / 2)

/-- The symbol→magnitude entries of an alphabet suffix starting at position
`index`, in insertion (position) order, with each position's magnitude given
by the spec formula `symVal`. -/
def charEntries : List Char → Nat → List (Char × Nat)
  | [], _ => []
  | c :: rest, index => (c, symVal index) :: charEntries rest (index + 1)

/-- The magnitude→symbol entries of an alphabet suffix starting at position
`index`, in insertion (position) order. -/
def magEntries : List Char → Nat → List (Nat × Char)
  | [], _ => []
  | c :: rest, index => (symVal index, c) :: magEntries rest (index + 1)

end Romantic

namespace Romantic

lemma allRangeAux_sound (f : Nat → Bool) :
    ∀ fuel lo len, allRangeAux f fuel lo len = true →
      ∀ i, i < len → f (lo + i) = true := by
  intro fuel
  induction fuel with
  | zero =>
    intro lo len h i hi
    simp only [allRangeAux, beq_iff_eq] at h
    omega
  | succ fuel ih =>
    intro lo len h i hi
    simp only [allRangeAux] at h
    by_cases h0 : len = 0
    · omega
    · by_cases h1 : len = 1
      · have hi0 : i = 0 := by omega
        simpa [h0, h1, hi0] using h
      · simp only [beq_iff_eq, h0, h1, if_false, Bool.and_eq_true] at h
        by_cases hlt : i < len / 2
        · exact ih lo (len / 2) h.1 i hlt
        · have h2 := ih (lo + len / 2) (len - len / 2) h.2 (i - len / 2) (by omega)
          have : lo + len / 2 + (i - len / 2) = lo + i := by omega
          rwa [this] at h2

lemma roundTrips_true {r : Roman} {t : IntType} {n : Nat}
    (h : roundTrips r t n = true) :
    ∃ s : String, r.to_string (n : Int) = .ok s ∧
      r.from_str t s = .ok (n : Int) := by
  unfold roundTrips at h
  cases hts : r.to_string (n : Int) with
  | error e => rw [hts] at h; simp at h
  | ok s =>
    rw [hts] at h
    dsimp only at h
    cases hfs : r.from_str t s with
    | error e => rw [hfs] at h; simp at h
    | ok v =>
      rw [hfs] at h
      dsimp only at h
      simp only [beq_iff_eq] at h
      exact ⟨s, rfl, by rw [hfs, h]⟩

lemma allRangeAux_mem (f : Nat → Bool) (fuel lo len n : Nat)
    (h : allRangeAux f fuel lo len = true) (h1 : lo ≤ n) (h2 : n < lo + len) :
    f n = true := by
  have := allRangeAux_sound f fuel lo len h (n - lo) (by omega)
  rwa [show lo + (n - lo) = n by omega] at this

set_option maxHeartbeats 1000000 in
lemma roundTrips_default_chunk0 :
    allRangeAux (roundTrips Roman.default i32) 10 0 500 = true := by decide

set_option maxHeartbeats 1000000 in
lemma roundTrips_default_chunk1 :
    allRangeAux (roundTrips Roman.default i32) 10 500 500 = true := by decide

set_option maxHeartbeats 1000000 in
lemma roundTrips_default_chunk2 :
    allRangeAux (roundTrips Roman.default i32) 10 1000 500 = true := by decide

set_option maxHeartbeats 1000000 in
lemma roundTrips_default_chunk3 :
    allRangeAux (roundTrips Roman.default i32) 10 1500 500 = true := by decide

set_option maxHeartbeats 1000000 in
lemma roundTrips_default_chunk4 :
    allRangeAux (roundTrips Roman.default i32) 10 2000 500 = true := by decide

set_option maxHeartbeats 1000000 in
lemma roundTrips_default_chunk5 :
    allRangeAux (roundTrips Roman.default i32) 10 2500 500 = true := by decide

set_option maxHeartbeats 1000000 in
lemma roundTrips_default_chunk6 :
    allRangeAux (roundTrips Roman.default i32) 10 3000 500 = true := by decide

set_option maxHeartbeats 1000000 in
lemma roundTrips_default_chunk7 :
    allRangeAux (roundTrips Roman.default i32) 10 3500 500 = true := by decide

/-- C1: Round-trip for the default alphabet: for every `0 ≤ n ≤ 3999`
(the numbers representable under the default alphabet), encoding `n` succeeds
and decoding the produced string with the same codec (at a signed 32-bit
target type) yields `n` again. -/
theorem default_round_trip (n : Nat) (h : n ≤ 3999) :
    ∃ s : String, Roman.default.to_string (n : Int) = .ok s ∧
      Roman.default.from_str i32 s = .ok (n : Int) := by
  have hf : roundTrips Roman.default i32 n = true := by
    by_cases h0 : n < 500
    · exact allRangeAux_mem _ 10 0 500 n roundTrips_default_chunk0
        (by omega) (by omega)
    · by_cases h1 : n < 1000
      · exact allRangeAux_mem _ 10 500 500 n roundTrips_default_chunk1
          (by omega) (by omega)
      · by_cases h2 : n < 1500
        · exact allRangeAux_mem _ 10 1000 500 n roundTrips_default_chunk2
            (by omega) (by omega)
        · by_cases h3 : n < 2000
          · exact allRangeAux_mem _ 10 1500 500 n roundTrips_default_chunk3
              (by omega) (by omega)
          · by_cases h4 : n < 2500
            · exact allRangeAux_mem _ 10 2000 500 n roundTrips_default_chunk4
                (by omega) (by omega)
            · by_cases h5 : n < 3000
              · exact allRangeAux_mem _ 10 2500 500 n
                  roundTrips_default_chunk5 (by omega) (by omega)
              · by_cases h6 : n < 3500
                · exact allRangeAux_mem _ 10 3000 500 n
                    roundTrips_default_chunk6 (by omega) (by omega)
                · exact allRangeAux_mem _ 10 3500 500 n
                    roundTrips_default_chunk7 (by omega) (by omega)
  simpa using roundTrips_true hf

/-- Witness for C1: the round-trip theorem applied at the concrete input 2022
(the README example `MMXXII`). -/
theorem default_round_trip_witness :
    ∃ s : String, Roman.default.to_string ((2022 : Nat) : Int) = .ok s ∧
      Roman.default.from_str i32 s = .ok ((2022 : Nat) : Int) :=
  default_round_trip 2022 (by norm_num)


lemma mag_step (index : Nat) :
    (if (decide (index > 0) && (index % 2 == 0)) = true then
        10 ^ ((index - 1) / 2) * 10
      else 10 ^ ((index - 1) / 2)) = 10 ^ (index / 2) := by
  rcases Nat.eq_zero_or_pos index with h0 | hpos
  · subst h0; simp
  · by_cases he : index % 2 = 0
    · have h1 : (index - 1) / 2 + 1 = index / 2 := by omega
      simp [hpos, he, ← pow_succ, h1]
    · have h1 : (index - 1) / 2 = index / 2 := by omega
      simp [he, h1]

lemma buildMaps_eq :
    ∀ (cs : List Char) (index : Nat) (cm : List (Char × Nat))
      (mc : List (Nat × Char)),
      buildMaps cs index (10 ^ ((index - 1) / 2)) cm mc =
        ((charEntries cs index).reverse ++ cm,
          (magEntries cs index).reverse ++ mc) := by
  intro cs
  induction cs with
  | nil => intro index cm mc; simp [buildMaps, charEntries, magEntries]
  | cons c rest ih =>
    intro index cm mc
    simp only [buildMaps, charEntries, magEntries, mapInsert]
    rw [mag_step index]
    have hval : 10 ^ (index / 2) * (if index % 2 == 0 then 1 else 5)
        = symVal index := by
      by_cases he : index % 2 = 0 <;> simp [symVal, he, Nat.mul_comm]
    rw [hval]
    have ihx := ih (index + 1) ((c, symVal index) :: cm)
      ((symVal index, c) :: mc)
    have hm : (index + 1 - 1) / 2 = index / 2 := by omega
    rw [hm] at ihx
    rw [ihx]
    simp [List.append_assoc]

lemma Roman_new_eq (cs : List Char) :
    Roman.new cs =
      ⟨(charEntries cs 0).reverse, (magEntries cs 0).reverse⟩ := by
  have h := buildMaps_eq cs 0 [] []
  simp only [Nat.zero_sub, Nat.zero_div, pow_zero, List.append_nil] at h
  simp [Roman.new, h]

lemma mem_charEntries :
    ∀ (cs : List Char) (index i : Nat) (h : i < cs.length),
      (cs.get ⟨i, h⟩, symVal (index + i)) ∈ charEntries cs index := by
  intro cs
  induction cs with
  | nil => intro index i h; simp at h
  | cons c rest ih =>
    intro index i h
    cases i with
    | zero => simp [charEntries]
    | succ j =>
      have := ih (index + 1) j (by simpa using Nat.lt_of_succ_lt_succ h)
      have harith : index + 1 + j = index + (j + 1) := by omega
      rw [harith] at this
      simp only [charEntries, List.mem_cons]
      right
      simpa using this

lemma mem_magEntries :
    ∀ (cs : List Char) (index i : Nat) (h : i < cs.length),
      (symVal (index + i), cs.get ⟨i, h⟩) ∈ magEntries cs index := by
  intro cs
  induction cs with
  | nil => intro index i h; simp at h
  | cons c rest ih =>
    intro index i h
    cases i with
    | zero => simp [magEntries]
    | succ j =>
      have := ih (index + 1) j (by simpa using Nat.lt_of_succ_lt_succ h)
      have harith : index + 1 + j = index + (j + 1) := by omega
      rw [harith] at this
      simp only [magEntries, List.mem_cons]
      right
      simpa using this

/-- C2: Magnitude assignment at construction: for every alphabet and every
0-indexed position `i` in it, the symbol at position `i` is assigned magnitude
`1 * 10 ^ (i / 2)` when `i` is even and `5 * 10 ^ (i / 2)` when `i` is odd
(the `symVal` formula), as an entry of both derived tables; for the default
alphabet this yields I=1, V=5, X=10, L=50, C=100, D=500, M=1000. -/
theorem new_assigns_spec_magnitudes (cs : List Char) (i : Nat)
    (h : i < cs.length) :
    (cs.get ⟨i, h⟩, symVal i) ∈ (Roman.new cs).character_magnitude_map ∧
    (symVal i, cs.get ⟨i, h⟩) ∈ (Roman.new cs).magnitude_character_map ∧
    (Roman.default.character_magnitude_map.lookup 'I' = some 1 ∧
      Roman.default.character_magnitude_map.lookup 'V' = some 5 ∧
      Roman.default.character_magnitude_map.lookup 'X' = some 10 ∧
      Roman.default.character_magnitude_map.lookup 'L' = some 50 ∧
      Roman.default.character_magnitude_map.lookup 'C' = some 100 ∧
      Roman.default.character_magnitude_map.lookup 'D' = some 500 ∧
      Roman.default.character_magnitude_map.lookup 'M' = some 1000) := by
  rw [Roman_new_eq]
  refine ⟨?_, ?_, by decide⟩
  · simpa using mem_charEntries cs 0 i h
  · simpa using mem_magEntries cs 0 i h

theorem new_assigns_spec_magnitudes_witness :
    (2 : Nat) < (['I', 'V', 'X', 'L', 'C', 'D', 'M'] : List Char).length ∧
    (('X', 10) ∈
      (Roman.new ['I', 'V', 'X', 'L', 'C', 'D', 'M']).character_magnitude_map) :=
  ⟨by decide, by
    have := new_assigns_spec_magnitudes ['I', 'V', 'X', 'L', 'C', 'D', 'M'] 2
      (by decide)
    simpa [symVal] using this.1⟩

lemma charEntries_append :
    ∀ (as bs : List Char) (index : Nat),
      charEntries (as ++ bs) index =
        charEntries as index ++ charEntries bs (index + as.length) := by
  intro as
  induction as with
  | nil => intro bs index; simp [charEntries]
  | cons a rest ih =>
    intro bs index
    rw [List.cons_append]
    simp only [charEntries]
    rw [ih bs (index + 1)]
    have : index + 1 + rest.length = index + (rest.length + 1) := by omega
    rw [this]
    simp

lemma keys_charEntries :
    ∀ (cs : List Char) (index : Nat) (p : Char × Nat),
      p ∈ charEntries cs index → p.1 ∈ cs := by
  intro cs
  induction cs with
  | nil => intro index p hp; simp [charEntries] at hp
  | cons c rest ih =>
    intro index p hp
    simp only [charEntries, List.mem_cons] at hp
    rcases hp with h | h
    · simp [h]
    · simp [ih (index + 1) p h]

lemma lookup_append_of_no_key {α β : Type} [BEq α] [LawfulBEq α] (c : α) :
    ∀ (A B : List (α × β)), (∀ p ∈ A, p.1 ≠ c) →
      List.lookup c (A ++ B) = List.lookup c B := by
  intro A
  induction A with
  | nil => intro B _; simp
  | cons kv rest ih =>
    intro B h
    obtain ⟨k, v⟩ := kv
    have hne : k ≠ c := h (k, v) (List.mem_cons_self _ _)
    have hk : (c == k) = false :=
      beq_eq_false_iff_ne.mpr (fun hc => hne hc.symm)
    simp only [List.cons_append, List.lookup, hk]
    exact ih B (fun p hp => h p (List.mem_cons_of_mem _ hp))

/-- C8: Duplicate-symbol handling at construction: `Roman.new` is a total
function, so an alphabet containing the same character at two positions is
still accepted, and the later occurrence's magnitude overwrites the earlier
entry in the symbol→magnitude table: a symbol whose last occurrence is at
position `cs.length` (no later occurrence in `ds`) looks up to the magnitude
of that last position.  Concretely, in `['I','V','I']` the symbol `I` decodes
as 10, the magnitude of its last position. -/
theorem duplicate_symbol_last_wins (cs ds : List Char) (c : Char)
    (h : c ∉ ds) :
    (Roman.new (cs ++ c :: ds)).character_magnitude_map.lookup c =
      some (symVal cs.length) ∧
    (Roman.new ['I', 'V', 'I']).character_magnitude_map.lookup 'I' =
      some 10 := by
  refine ⟨?_, by rfl⟩
  rw [Roman_new_eq]
  simp only
  rw [charEntries_append]
  simp only [charEntries, List.reverse_append, List.reverse_cons,
    List.append_assoc]
  rw [lookup_append_of_no_key]
  · simp [List.lookup]
  · intro p hp
    simp only [List.mem_reverse] at hp
    intro hpc
    exact h (by simpa [hpc] using keys_charEntries ds _ p hp)

theorem duplicate_symbol_last_wins_witness :
    ('I' ∉ (['V'] : List Char)) ∧
    (Roman.new (['I'] ++ 'I' :: ['V'])).character_magnitude_map.lookup 'I' =
      some (symVal (['I'] : List Char).length) :=
  ⟨by decide, (duplicate_symbol_last_wins ['I'] ['V'] 'I' (by decide)).1⟩

lemma except_bind_err {ε α β : Type} (x : Except ε α) (f : α → Except ε β)
    (e : ε) (h : x >>= f = .error e) :
    x = .error e ∨ ∃ a, x = .ok a ∧ f a = .error e := by
  cases x with
  | error e2 =>
    left
    have : e2 = e := by
      simpa [Bind.bind, Except.bind] using h
    rw [this]
  | ok a =>
    right
    exact ⟨a, rfl, by simpa [Bind.bind, Except.bind] using h⟩

lemma voc_err (r : Roman) (m : Nat) (e : ConversionError)
    (h : value_of_character r m = .error e) :
    e = .MissingMagnitude m ∧
      r.magnitude_character_map.lookup m = none := by
  unfold value_of_character at h
  cases hl : r.magnitude_character_map.lookup m <;> rw [hl] at h
  · exact ⟨by simpa using h.symm, rfl⟩
  · simp at h

lemma digitPiece_err (r : Roman) (d mag : Nat) (e : ConversionError)
    (h : digitPiece r d mag = .error e) :
    ∃ m, e = .MissingMagnitude m ∧ m ∈ needs d mag ∧
      r.magnitude_character_map.lookup m = none := by
  rcases d with _ | _ | _ | _ | _ | _ | _ | _ | _ | _ | d
  · simp [digitPiece] at h
  · simp only [digitPiece] at h
    rcases except_bind_err _ _ _ h with h1 | ⟨a, _, h2⟩
    · obtain ⟨he, hl⟩ := voc_err r mag e h1
      exact ⟨mag, he, by simp [needs], hl⟩
    · simp [pure, Except.pure] at h2
  · simp only [digitPiece] at h
    rcases except_bind_err _ _ _ h with h1 | ⟨a, _, h2⟩
    · obtain ⟨he, hl⟩ := voc_err r mag e h1
      exact ⟨mag, he, by simp [needs], hl⟩
    · simp [pure, Except.pure] at h2
  · simp only [digitPiece] at h
    rcases except_bind_err _ _ _ h with h1 | ⟨a, _, h2⟩
    · obtain ⟨he, hl⟩ := voc_err r mag e h1
      exact ⟨mag, he, by simp [needs], hl⟩
    · simp [pure, Except.pure] at h2
  · -- digit 4: five looked up first, then one
    simp only [digitPiece] at h
    rcases except_bind_err _ _ _ h with h1 | ⟨a, _, h2⟩
    · obtain ⟨he, hl⟩ := voc_err r (mag * 5) e h1
      exact ⟨mag * 5, he, by simp [needs], hl⟩
    · rcases except_bind_err _ _ _ h2 with h3 | ⟨b, _, h4⟩
      · obtain ⟨he, hl⟩ := voc_err r mag e h3
        exact ⟨mag, he, by simp [needs], hl⟩
      · simp [pure, Except.pure] at h4
  · -- digit 5
    simp only [digitPiece] at h
    obtain ⟨he, hl⟩ := voc_err r (mag * 5) e h
    exact ⟨mag * 5, he, by simp [needs], hl⟩
  · -- digit 6
    simp only [digitPiece] at h
    rcases except_bind_err _ _ _ h with h1 | ⟨a, _, h2⟩
    · obtain ⟨he, hl⟩ := voc_err r mag e h1
      exact ⟨mag, he, by simp [needs], hl⟩
    · rcases except_bind_err _ _ _ h2 with h3 | ⟨b, _, h4⟩
      · obtain ⟨he, hl⟩ := voc_err r (mag * 5) e h3
        exact ⟨mag * 5, he, by simp [needs], hl⟩
      · simp [pure, Except.pure] at h4
  · -- digit 7
    simp only [digitPiece] at h
    rcases except_bind_err _ _ _ h with h1 | ⟨a, _, h2⟩
    · obtain ⟨he, hl⟩ := voc_err r mag e h1
      exact ⟨mag, he, by simp [needs], hl⟩
    · rcases except_bind_err _ _ _ h2 with h3 | ⟨b, _, h4⟩
      · obtain ⟨he, hl⟩ := voc_err r (mag * 5) e h3
        exact ⟨mag * 5, he, by simp [needs], hl⟩
      · simp [pure, Except.pure] at h4
  · -- digit 8
    simp only [digitPiece] at h
    rcases except_bind_err _ _ _ h with h1 | ⟨a, _, h2⟩
    · obtain ⟨he, hl⟩ := voc_err r mag e h1
      exact ⟨mag, he, by simp [needs], hl⟩
    · rcases except_bind_err _ _ _ h2 with h3 | ⟨b, _, h4⟩
      · obtain ⟨he, hl⟩ := voc_err r (mag * 5) e h3
        exact ⟨mag * 5, he, by simp [needs], hl⟩
      · simp [pure, Except.pure] at h4
  · -- digit 9: ten looked up first, then one
    simp only [digitPiece] at h
    rcases except_bind_err _ _ _ h with h1 | ⟨a, _, h2⟩
    · obtain ⟨he, hl⟩ := voc_err r (mag * 10) e h1
      exact ⟨mag * 10, he, by simp [needs], hl⟩
    · rcases except_bind_err _ _ _ h2 with h3 | ⟨b, _, h4⟩
      · obtain ⟨he, hl⟩ := voc_err r mag e h3
        exact ⟨mag, he, by simp [needs], hl⟩
      · simp [pure, Except.pure] at h4
  · -- digits ≥ 10: the unreachable arm, which never errors
    simp [digitPiece] at h

lemma toStringAux_err :
    ∀ (r : Roman) (ds : List Nat) (k : Nat) (e : ConversionError),
      toStringAux r ds k = .error e →
      ∃ i, ∃ hi : i < ds.length, ds.get ⟨i, hi⟩ ≠ 0 ∧
        ∃ m, e = .MissingMagnitude m ∧
          m ∈ needs (ds.get ⟨i, hi⟩) (10 ^ (k + i)) ∧
          r.magnitude_character_map.lookup m = none := by
  intro r ds
  induction ds with
  | nil => intro k e h; simp [toStringAux] at h
  | cons d rest ih =>
    intro k e h
    simp only [toStringAux] at h
    by_cases hd : d = 0
    · rw [if_pos (by simpa using hd)] at h
      obtain ⟨i, hi, h1, m, h2, h3, h4⟩ := ih (k + 1) e h
      refine ⟨i + 1, by simpa using Nat.succ_lt_succ hi, by simpa using h1,
        m, h2, ?_, h4⟩
      have harith : k + 1 + i = k + (i + 1) := by omega
      rw [harith] at h3
      simpa using h3
    · rw [if_neg (by simpa using hd)] at h
      rcases except_bind_err _ _ _ h with h1 | ⟨a, _, h2⟩
      · obtain ⟨m, h2, h3, h4⟩ := digitPiece_err r d (10 ^ k) e h1
        exact ⟨0, by simp, by simpa using hd, m, h2, by simpa using h3, h4⟩
      · rcases except_bind_err _ _ _ h2 with h3 | ⟨b, _, h4⟩
        · obtain ⟨i, hi, h5, m, h6, h7, h8⟩ := ih (k + 1) e h3
          refine ⟨i + 1, by simpa using Nat.succ_lt_succ hi,
            by simpa using h5, m, h6, ?_, h8⟩
          have harith : k + 1 + i = k + (i + 1) := by omega
          rw [harith] at h7
          simpa using h7
        · simp [pure, Except.pure] at h4

lemma decDigitsRevAux_congr :
    ∀ (f1 f2 n : Nat), n < f1 → n < f2 →
      decDigitsRevAux f1 n = decDigitsRevAux f2 n := by
  intro f1
  induction f1 with
  | zero => intro f2 n h1 h2; omega
  | succ g ih =>
    intro f2 n h1 h2
    cases f2 with
    | zero => omega
    | succ g2 =>
      simp only [decDigitsRevAux]
      by_cases hn : n < 10
      · simp [hn]
      · rw [if_neg hn, if_neg hn]
        have hd : n / 10 < n := Nat.div_lt_self (by omega) (by norm_num)
        rw [ih g2 (n / 10) (by omega) (by omega)]

lemma decDigitsRev_eq (n : Nat) :
    decDigitsRev n =
      if n < 10 then [n] else n % 10 :: decDigitsRev (n / 10) := by
  unfold decDigitsRev
  by_cases hn : n < 10
  · simp [decDigitsRevAux, hn]
  · simp only [decDigitsRevAux, if_neg hn]
    congr 1
    have hd : n / 10 < n := Nat.div_lt_self (by omega) (by norm_num)
    exact decDigitsRevAux_congr n (n / 10 + 1) (n / 10) hd (by omega)

lemma decDigitsRev_lt_ten : ∀ (n : Nat), ∀ d ∈ decDigitsRev n, d < 10 := by
  intro n
  induction n using Nat.strong_induction_on with
  | _ n ih =>
    intro d hd
    rw [decDigitsRev_eq] at hd
    by_cases hn : n < 10
    · rw [if_pos hn] at hd
      simp at hd
      omega
    · rw [if_neg hn] at hd
      rcases List.mem_cons.mp hd with h | h
      · omega
      · exact ih (n / 10) (Nat.div_lt_self (by omega) (by norm_num)) d h

lemma decDigitsRev_exists_nonzero :
    ∀ (n : Nat), 0 < n → ∃ d ∈ decDigitsRev n, d ≠ 0 := by
  intro n
  induction n using Nat.strong_induction_on with
  | _ n ih =>
    intro hn
    rw [decDigitsRev_eq]
    by_cases h10 : n < 10
    · exact ⟨n, by simp [h10], by omega⟩
    · rw [if_neg h10]
      by_cases hm : n % 10 = 0
      · obtain ⟨d, hd, hdne⟩ :=
          ih (n / 10) (Nat.div_lt_self (by omega) (by norm_num)) (by omega)
        exact ⟨d, List.mem_cons_of_mem _ hd, hdne⟩
      · exact ⟨n % 10, by simp, hm⟩

lemma toStringAux_empty_roman :
    ∀ (ds : List Nat) (k : Nat), (∀ d ∈ ds, d < 10) → (∃ d ∈ ds, d ≠ 0) →
      ∃ m, toStringAux (Roman.new []) ds k = .error (.MissingMagnitude m) := by
  intro ds
  induction ds with
  | nil => intro k _ h; simp at h
  | cons d rest ih =>
    intro k hlt hex
    by_cases hd : d = 0
    · subst hd
      simp only [toStringAux, if_pos]
      apply ih (k + 1) (fun d' hd' => hlt d' (List.mem_cons_of_mem _ hd'))
      obtain ⟨d', hd', hne⟩ := hex
      rcases List.mem_cons.mp hd' with h | h
      · exact absurd h hne
      · exact ⟨d', h, hne⟩
    · have hd10 : d < 10 := hlt d (List.mem_cons_self _ _)
      have hd1 : 1 ≤ d := by omega
      interval_cases d
      · exact ⟨10 ^ k, rfl⟩
      · exact ⟨10 ^ k, rfl⟩
      · exact ⟨10 ^ k, rfl⟩
      · exact ⟨10 ^ k * 5, rfl⟩
      · exact ⟨10 ^ k * 5, rfl⟩
      · exact ⟨10 ^ k, rfl⟩
      · exact ⟨10 ^ k, rfl⟩
      · exact ⟨10 ^ k, rfl⟩
      · exact ⟨10 ^ k * 10, rfl⟩

/-- C9: Construction is total (`Roman.new` is a total function, accepting
every alphabet including the empty one), and the codec built from the empty
alphabet represents exactly zero: encoding `0` yields the empty string and
decoding the empty string yields `0` for every target type, while encoding
any positive number fails (with a `MissingMagnitude` error) and decoding any
non-empty string fails (with an `InvalidCharacter` error). -/
theorem empty_alphabet_codec (t : IntType) (n : Int) (s : String)
    (hn : 0 < n) (hs : s ≠ "") :
    (Roman.new []).to_string 0 = .ok "" ∧
    (Roman.new []).from_str t "" = .ok 0 ∧
    (∃ m, (Roman.new []).to_string n = .error (.MissingMagnitude m)) ∧
    (∃ c, (Roman.new []).from_str t s = .error (.InvalidCharacter c)) := by
  refine ⟨rfl, rfl, ?_, ?_⟩
  · have hpos : 0 < n.toNat := by omega
    obtain ⟨m, hm⟩ := toStringAux_empty_roman (decDigitsRev n.toNat) 0
      (decDigitsRev_lt_ten n.toNat) (decDigitsRev_exists_nonzero n.toNat hpos)
    refine ⟨m, ?_⟩
    unfold Roman.to_string
    rw [if_neg (by omega), hm]
  · obtain ⟨data⟩ := s
    cases data with
    | nil => exact absurd rfl hs
    | cons c cs => exact ⟨c, rfl⟩

/-- Witness for C9: the empty-alphabet theorem applied at target type `i32`,
positive number `5` and non-empty string `"Z"`. -/
theorem empty_alphabet_codec_witness :
    (Roman.new []).to_string 0 = .ok "" ∧
    (Roman.new []).from_str i32 "" = .ok 0 ∧
    (∃ m, (Roman.new []).to_string 5 = .error (.MissingMagnitude m)) ∧
    (∃ c, (Roman.new []).from_str i32 "Z" = .error (.InvalidCharacter c)) :=
  empty_alphabet_codec i32 5 "Z" (by norm_num) (by decide)

lemma toStringAux_ne_negativeNumber (r : Roman) (ds : List Nat) (k : Nat) :
    toStringAux r ds k ≠ .error .NegativeNumber := by
  intro h
  obtain ⟨i, hi, _, m, h2, _, _⟩ := toStringAux_err r ds k _ h
  simp at h2

/-- C10: Encode fails with `NegativeNumber` if and only if the input number
is negative; the check precedes all digit processing, so a negative input can
produce no other error kind.  In particular, for the default alphabet,
`encode(-100)` fails with `NegativeNumber`. -/
theorem to_string_negative_iff (r : Roman) (n : Int) :
    (r.to_string n = .error .NegativeNumber ↔ n < 0) ∧
    Roman.default.to_string (-100) = .error .NegativeNumber := by
  refine ⟨⟨?_, ?_⟩, rfl⟩
  · intro h
    by_contra hn
    unfold Roman.to_string at h
    rw [if_neg hn] at h
    cases hts : toStringAux r (decDigitsRev n.toNat) 0 with
    | ok s => rw [hts] at h; simp at h
    | error e2 =>
      rw [hts] at h
      simp only [Except.error.injEq] at h
      rw [h] at hts
      exact toStringAux_ne_negativeNumber r _ 0 hts
  · intro h
    unfold Roman.to_string
    rw [if_pos h]

/-- Witness for C10: the iff applied at the concrete negative input `-100`
for the default alphabet. -/
theorem to_string_negative_iff_witness :
    Roman.default.to_string (-100) = .error .NegativeNumber :=
  (to_string_negative_iff Roman.default (-100)).1.mpr (by norm_num)

/-- C4: For the 3-symbol alphabet `['A','B','C']` (A=1, B=5, C=10), encode
maps `0..10` to exactly `"", "A", "AA", "AAA", "AB", "B", "BA", "BAA",
"BAAA", "AC", "C"`, and decode maps each of those strings back to its
integer. -/
theorem custom_abc_encode_decode :
    ((List.range 11).map
        (fun n => (Roman.new ['A', 'B', 'C']).to_string (n : Int)) =
      [.ok "", .ok "A", .ok "AA", .ok "AAA", .ok "AB", .ok "B", .ok "BA",
        .ok "BAA", .ok "BAAA", .ok "AC", .ok "C"]) ∧
    (["", "A", "AA", "AAA", "AB", "B", "BA", "BAA", "BAAA", "AC", "C"].map
        ((Roman.new ['A', 'B', 'C']).from_str i32) =
      (List.range 11).map (fun n => .ok (n : Int))) :=
  ⟨rfl, rfl⟩

/-- C3: Decode subtractive rule: in the left-to-right scan, the current
character's magnitude is subtracted from the running total exactly when a next
character exists, is present in the table, and its magnitude equals exactly
`5 *` or `10 *` the current magnitude; otherwise (next character absent from
the table, a non-5x/10x next magnitude, or no next character at all) the
magnitude is added.  In both cases the scan continues on the remaining
characters starting with the lookahead character, which is processed normally
on the following iteration rather than skipped. -/
theorem decode_subtractive_rule (r : Roman) (t : IntType) (result : Int)
    (c next : Char) (rest : List Char) (v nv : Nat) (gv : Int)
    (hc : r.character_magnitude_map.lookup c = some v)
    (hg : t.fromNat v = some gv) :
    (r.character_magnitude_map.lookup next = some nv →
      fromStrAux r t (c :: next :: rest) result =
        if v * 5 = nv ∨ v * 10 = nv then
          match t.checkedSub result gv with
          | some result2 => fromStrAux r t (next :: rest) result2
          | none => .error .Overflow
        else
          match t.checkedAdd result gv with
          | some result2 => fromStrAux r t (next :: rest) result2
          | none => .error .Overflow) ∧
    (r.character_magnitude_map.lookup next = none →
      fromStrAux r t (c :: next :: rest) result =
        match t.checkedAdd result gv with
        | some result2 => fromStrAux r t (next :: rest) result2
        | none => .error .Overflow) ∧
    (fromStrAux r t [c] result =
      match t.checkedAdd result gv with
      | some result2 => fromStrAux r t [] result2
      | none => .error .Overflow) := by
  refine ⟨?_, ?_, ?_⟩
  · intro hnv
    by_cases hp : v * 5 = nv ∨ v * 10 = nv
    · have hsub : subtractNext r v (next :: rest) = true := by
        rcases hp with h | h <;> simp [subtractNext, hnv, h]
      rw [if_pos hp]
      simp only [fromStrAux, hc, hg, hsub, if_true]
      cases t.checkedSub result gv <;> rfl
    · have hsub : subtractNext r v (next :: rest) = false := by
        push_neg at hp
        simp [subtractNext, hnv, hp.1, hp.2]
      rw [if_neg hp]
      simp only [fromStrAux, hc, hg, hsub, Bool.false_eq_true, if_false]
      cases t.checkedAdd result gv <;> rfl
  · intro hnv
    have hsub : subtractNext r v (next :: rest) = false := by
      simp [subtractNext, hnv]
    simp only [fromStrAux, hc, hg, hsub, Bool.false_eq_true, if_false]
    cases t.checkedAdd result gv <;> rfl
  · have hsub : subtractNext r v [] = false := rfl
    simp only [fromStrAux, hc, hg, hsub, Bool.false_eq_true, if_false]
    cases t.checkedAdd result gv <;> rfl

/-- Witness for C3: the subtractive case applied at the default alphabet on
input `['I', 'V']` (decoding `"IV"`), with current magnitude 1 and lookahead
magnitude 5 = 5 × 1. -/
theorem decode_subtractive_rule_witness :
    fromStrAux Roman.default i32 ['I', 'V'] 0 =
      if (1 : Nat) * 5 = 5 ∨ (1 : Nat) * 10 = 5 then
        match i32.checkedSub 0 1 with
        | some result2 => fromStrAux Roman.default i32 ['V'] result2
        | none => .error .Overflow
      else
        match i32.checkedAdd 0 1 with
        | some result2 => fromStrAux Roman.default i32 ['V'] result2
        | none => .error .Overflow :=
  (decode_subtractive_rule Roman.default i32 0 'I' 'V' [] 1 5 1 rfl rfl).1 rfl

/-- C5: Encode fails with `MissingMagnitude m` only when some non-zero
decimal digit of the input actually requires the symbol of magnitude `m`
(and that magnitude is absent from the table); and for the default alphabet
`encode(3999)` succeeds with `"MMMCMXCIX"` while `encode(4000)` fails with
`MissingMagnitude 5000` (the magnitude-5000 symbol is absent). -/
theorem encode_missing_magnitude_only_when_needed (r : Roman) (n : Int)
    (e : ConversionError) (hn : 0 ≤ n) (h : r.to_string n = .error e) :
    (∃ m, e = .MissingMagnitude m ∧
      ∃ i, ∃ hi : i < (decDigitsRev n.toNat).length,
        (decDigitsRev n.toNat).get ⟨i, hi⟩ ≠ 0 ∧
        m ∈ needs ((decDigitsRev n.toNat).get ⟨i, hi⟩) (10 ^ i) ∧
        r.magnitude_character_map.lookup m = none) ∧
    Roman.default.to_string 3999 = .ok "MMMCMXCIX" ∧
    Roman.default.to_string 4000 = .error (.MissingMagnitude 5000) := by
  refine ⟨?_, rfl, rfl⟩
  unfold Roman.to_string at h
  rw [if_neg (by omega)] at h
  cases hts : toStringAux r (decDigitsRev n.toNat) 0 with
  | ok s => rw [hts] at h; simp at h
  | error e2 =>
    rw [hts] at h
    simp only [Except.error.injEq] at h
    rw [h] at hts
    obtain ⟨i, hi, h1, m, h2, h3, h4⟩ := toStringAux_err r _ 0 e hts
    exact ⟨m, h2, i, hi, h1, by simpa using h3, h4⟩

/-- Witness for C5: the theorem applied at the default alphabet and input
4000, whose thousands digit 4 requires the absent magnitude-5000 symbol. -/
theorem encode_missing_magnitude_witness :
    ∃ m, ConversionError.MissingMagnitude 5000 = .MissingMagnitude m ∧
      ∃ i, ∃ hi : i < (decDigitsRev (4000 : Int).toNat).length,
        (decDigitsRev (4000 : Int).toNat).get ⟨i, hi⟩ ≠ 0 ∧
        m ∈ needs ((decDigitsRev (4000 : Int).toNat).get ⟨i, hi⟩) (10 ^ i) ∧
        Roman.default.magnitude_character_map.lookup m = none :=
  (encode_missing_magnitude_only_when_needed Roman.default 4000
    (.MissingMagnitude 5000) (by norm_num) rfl).1

lemma fromStrAux_ok_range (r : Roman) (t : IntType) :
    ∀ (cs : List Char) (result v2 : Int), t.lo ≤ result → result ≤ t.hi →
      fromStrAux r t cs result = .ok v2 → t.lo ≤ v2 ∧ v2 ≤ t.hi := by
  intro cs
  induction cs with
  | nil =>
    intro result v2 h1 h2 h
    simp only [fromStrAux, Except.ok.injEq] at h
    omega
  | cons c rest ih =>
    intro result v2 h1 h2 h
    simp only [fromStrAux] at h
    cases hc : List.lookup c r.character_magnitude_map with
    | none => rw [hc] at h; simp at h
    | some v =>
      rw [hc] at h
      dsimp only at h
      cases hg : t.fromNat v with
      | none => rw [hg] at h; simp at h
      | some gv =>
        rw [hg] at h
        dsimp only at h
        by_cases hs : subtractNext r v rest = true
        · rw [if_pos hs] at h
          cases hcs : t.checkedSub result gv with
          | none => rw [hcs] at h; simp at h
          | some r2 =>
            rw [hcs] at h
            dsimp only at h
            have hr : t.lo ≤ r2 ∧ r2 ≤ t.hi := by
              unfold IntType.checkedSub at hcs
              split at hcs
              · simp only [Option.some.injEq] at hcs
                omega
              · simp at hcs
            exact ih r2 v2 hr.1 hr.2 h
        · rw [if_neg hs] at h
          cases hca : t.checkedAdd result gv with
          | none => rw [hca] at h; simp at h
          | some r2 =>
            rw [hca] at h
            dsimp only at h
            have hr : t.lo ≤ r2 ∧ r2 ≤ t.hi := by
              unfold IntType.checkedAdd at hca
              split at hca
              · simp only [Option.some.injEq] at hca
                omega
              · simp at hca
            exact ih r2 v2 hr.1 hr.2 h

/-- C6: Decode accumulation is overflow-checked on the requested target type:
a scan step whose exact subtraction (resp. addition) would leave the
representable range `[t.lo, t.hi]` makes the whole call fail with `Overflow`
(the `Except` result carries no partial value), and every successful decode
returns a value inside the representable range. -/
theorem decode_overflow_checked (r : Roman) (t : IntType) (input : String)
    (result gv : Int) (c : Char) (rest : List Char) (v : Nat)
    (hc : r.character_magnitude_map.lookup c = some v)
    (hg : t.fromNat v = some gv) :
    (subtractNext r v rest = true →
      ¬(t.lo ≤ result - gv ∧ result - gv ≤ t.hi) →
      fromStrAux r t (c :: rest) result = .error .Overflow) ∧
    (subtractNext r v rest = false →
      ¬(t.lo ≤ result + gv ∧ result + gv ≤ t.hi) →
      fromStrAux r t (c :: rest) result = .error .Overflow) ∧
    (∀ v2 : Int, t.lo ≤ 0 → 0 ≤ t.hi → r.from_str t input = .ok v2 →
      t.lo ≤ v2 ∧ v2 ≤ t.hi) := by
  refine ⟨?_, ?_, ?_⟩
  · intro hs hno
    have hcs : t.checkedSub result gv = none := by
      unfold IntType.checkedSub
      rw [if_neg hno]
    simp only [fromStrAux, hc, hg, hs, if_true, hcs]
  · intro hs hno
    have hca : t.checkedAdd result gv = none := by
      unfold IntType.checkedAdd
      rw [if_neg hno]
    simp only [fromStrAux, hc, hg, hs, Bool.false_eq_true, if_false, hca]
  · intro v2 hlo hhi h
    exact fromStrAux_ok_range r t input.data 0 v2 hlo hhi h

/-- Witness for C6: the addition-overflow case applied at the default
alphabet with target type `u8` on `['C', 'C', 'C']` with running total 200:
the step 200 + 100 leaves the `u8` range, so decode fails with `Overflow`. -/
theorem decode_overflow_checked_witness :
    fromStrAux Roman.default u8 ['C', 'C', 'C'] 200 = .error .Overflow :=
  (decode_overflow_checked Roman.default u8 "CCC" 200 100 'C' ['C', 'C'] 100
    rfl rfl).2.1 rfl (by decide)

/-- C7: For an unsigned target type (lower bound 0), decode fails with
`Overflow` on any input beginning with a subtractive pair, because the first
step subtracts a positive magnitude from the running total 0.  In particular
`from_str::<u32>("IV")` returns `Overflow` even though the final value 4 is
representable in `u32` (and decodes fine at a signed type), so the
encode/decode round trip fails at such values for unsigned target types. -/
theorem unsigned_decode_subtractive_overflow (hi2 : Int) (r : Roman)
    (s : String) (c next : Char) (rest : List Char) (v nv : Nat) (gv : Int)
    (hdata : s.data = c :: next :: rest)
    (hc : r.character_magnitude_map.lookup c = some v)
    (hv : 0 < v)
    (hnv : r.character_magnitude_map.lookup next = some nv)
    (hsub : v * 5 = nv ∨ v * 10 = nv)
    (hg : IntType.fromNat ⟨0, hi2⟩ v = some gv) :
    (r.from_str ⟨0, hi2⟩ s = .error .Overflow) ∧
    Roman.default.to_string 4 = .ok "IV" ∧
    Roman.default.from_str u32 "IV" = .error .Overflow ∧
    Roman.default.from_str i32 "IV" = .ok 4 ∧
    (u32.lo ≤ 4 ∧ (4 : Int) ≤ u32.hi) := by
  refine ⟨?_, rfl, rfl, rfl, by decide⟩
  unfold Roman.from_str
  rw [hdata]
  have hsubn : subtractNext r v (next :: rest) = true := by
    rcases hsub with h | h <;> simp [subtractNext, hnv, h]
  have hgv : gv = (v : Int) := by
    unfold IntType.fromNat at hg
    split at hg
    · simp only [Option.some.injEq] at hg
      omega
    · simp at hg
  have hcs : IntType.checkedSub ⟨0, hi2⟩ 0 gv = none := by
    unfold IntType.checkedSub
    rw [if_neg]
    intro hcon
    have : (1 : Int) ≤ (v : Int) := by exact_mod_cast hv
    simp only at hcon
    omega
  simp only [fromStrAux, hc, hg, hsubn, if_true, hcs]

/-- Witness for C7: the theorem applied at the default alphabet decoding
`"IV"` with the `u32` range. -/
theorem unsigned_decode_subtractive_overflow_witness :
    Roman.default.from_str ⟨0, 4294967295⟩ "IV" = .error .Overflow :=
  (unsigned_decode_subtractive_overflow 4294967295 Roman.default "IV" 'I' 'V'
    [] 1 5 1 rfl rfl (by norm_num) rfl (Or.inl rfl) rfl).1

end Romantic
